import Mathlib

/-!
Shallow embedding of the template service of mailcastpy
(`src/services/template_service.py`): variable substitution,
parameter extraction and the rich-text-to-HTML renderer.

Python strings are modelled as `String` / `List Char`.  A Python set of
format tags is modelled as the list of its elements in iteration order
(distinct elements; run-segmentation compares these lists up to set
equality, exactly as `!=` compares Python sets, while the style builder
walks the list in order, exactly as `for tag in current_tags` walks the
set in its iteration order).  The dict mapping stringified offsets to
tag lists is modelled as a total function `Nat → List String`, absent
keys giving `[]`, matching `self._tags.get(str(p), [])`.
-/

namespace Mailcast

/-- `startsWithL pat s` is true when `pat` is a prefix of `s`. -/
def startsWithL : List Char → List Char → Bool
  | [], _ => true
  | _ :: _, [] => false
  | p :: ps, c :: cs => p == c && startsWithL ps cs

/-- `containsSub q s` is true when `q` occurs as a contiguous substring of `s`. -/
def containsSub (q : List Char) : List Char → Bool
  | [] => startsWithL q []
  | c :: rest => startsWithL q (c :: rest) || containsSub q rest

/-- Number of positions of `s` (strictly inside `s`) at which `q` occurs. -/
def countSub (q : List Char) : List Char → Nat
  | [] => 0
  | c :: rest => (if startsWithL q (c :: rest) then 1 else 0) + countSub q rest

/-- The scan of Python `str.replace(pat, rep)`, structurally recursive
on a fuel that bounds the number of scan steps (each step consumes at
least one character, so `s.length` fuel is always enough; the `0` case
is unreachable from `replaceL`). -/
def replaceGo (pat rep : List Char) : Nat → List Char → List Char
  | 0, s => s
  | _ + 1, [] => []
  | fuel + 1, c :: rest =>
    if pat ≠ [] ∧ startsWithL pat (c :: rest) = true then
      rep ++ replaceGo pat rep fuel ((c :: rest).drop pat.length)
    else
      c :: replaceGo pat rep fuel rest

/-- Python `str.replace(pat, rep)`: replace every occurrence of `pat`,
scanning left to right, non-overlapping.  (For the empty pattern Python
inserts `rep` between characters; the embedding never calls it with an
empty pattern, and maps the empty pattern to the identity scan.) -/
def replaceL (pat rep : List Char) (s : List Char) : List Char :=
  replaceGo pat rep s.length s

/-- The loop body sequence of `TemplateService.replace_variables`:
`result = result.replace('{' + key + '}', value)` for each key/value
pair in iteration (= insertion) order. -/
def replace_variables_list (t : List Char) : List (String × String) → List Char
  | [] => t
  | kv :: rest =>
      replace_variables_list (replaceL ('{' :: (kv.1.data ++ ['}'])) kv.2.data t) rest

/-- `TemplateService.replace_variables` (template_service.py lines 94–112).
The `variables` dict is modelled as its key/value pairs in insertion order. -/
def replace_variables (template : String) (vars : List (String × String)) : String :=
  ⟨replace_variables_list template.data vars⟩

/-- The regex scan, structurally recursive on a fuel bounding the
number of scan steps (each step consumes at least one character, so
`s.length` fuel is always enough; the `0` case is unreachable from
`findParams`). -/
def findParamsGo : Nat → List Char → List String
  | 0, _ => []
  | _ + 1, [] => []
  | fuel + 1, c :: rest =>
    if c = '{' then
      let run := rest.takeWhile (fun x => x != '}')
      let rest' := rest.dropWhile (fun x => x != '}')
      if run.isEmpty then findParamsGo fuel rest
      else if rest'.isEmpty then findParamsGo fuel rest
      else ⟨run⟩ :: findParamsGo fuel rest'.tail
    else findParamsGo fuel rest

/-- The scan of `re.findall(r'\x7b([^\x7d]+)\x7d', text)`: left-to-right,
non-overlapping; at a literal `{` the regex greedily takes one or more
non-`}` characters and then requires a `}`. -/
def findParams (s : List Char) : List String :=
  findParamsGo s.length s

/-- `TemplateService.validate_template_params` (lines 207–223):
the set of identifiers found by the regex scan. -/
def validate_template_params (text : String) : Finset String :=
  (findParams text.data).toFinset

/-- `TemplateService.get_template_params` (lines 225–244). -/
def get_template_params (subject content : String) : Finset String :=
  validate_template_params subject ∪ validate_template_params content

/-- `TemplateService.validate_template` (lines 246–273). -/
def validate_template (subject content : String) (available_params : Finset String) :
    Bool × Finset String :=
  let template_params := get_template_params subject content
  let undefined_params := template_params \ available_params
  (undefined_params.card == 0, undefined_params)

/-! ## The rich-text-to-HTML renderer (`get_html_content`, lines 114–205) -/

/-- Per-character form of Python `html.escape` with its default
`quote=True` (the sequential `str.replace` passes of `html.escape`
touch pairwise disjoint characters, so they amount to this single
character map). -/
def escapeChar (c : Char) : List Char :=
  if c = '&' then "&amp;".data
  else if c = '<' then "&lt;".data
  else if c = '>' then "&gt;".data
  else if c = '"' then "&quot;".data
  else if c = '\'' then "&#x27;".data
  else [c]

/-- `html.escape(segment)` over the characters of the segment. -/
def htmlEscapeL (s : List Char) : List Char := (s.map escapeChar).flatten

/-- Python `str.replace(' ', '&nbsp;')` as the per-character map it is
(the pattern is a single character). -/
def nbspChar (c : Char) : List Char := if c = ' ' then "&nbsp;".data else [c]

def replaceSpacesL (s : List Char) : List Char := (s.map nbspChar).flatten

/-- Lines 167–170: first HTML-escape the run's text, then replace the
literal spaces of the escaped string by `&nbsp;`. -/
def processSegment (s : List Char) : String := ⟨replaceSpacesL (htmlEscapeL s)⟩

/-- The filter `[tag for tag in ... if tag != 'sel']` applied to a
position's stored tag list. -/
def selFilter (l : List String) : List String := l.filter (fun t => t != "sel")

/-- `{tag for tag in self._tags.get(str(p), []) if tag != 'sel'}`:
the set built at position `p`, as the list of its distinct elements in
iteration order. -/
def tagsAt (tags : Nat → List String) (p : Nat) : List String :=
  (selFilter (tags p)).dedup

/-- Equality of the Python sets represented by two lists. -/
def listSetEq (a b : List String) : Bool :=
  a.all (fun t => b.contains t) && b.all (fun t => a.contains t)

/-- Python `str.strip()` (over the ASCII whitespace the tags can
carry): drop leading and trailing whitespace. -/
def trimL (l : List Char) : List Char :=
  ((l.dropWhile Char.isWhitespace).reverse.dropWhile Char.isWhitespace).reverse

/-- The two parameterized style declarations of the tag loop
(lines 181–191): `font-family:<name>` and `font-size:<pt>` tags map to
their CSS declarations (`tag.split(':', 1)[1].strip()` is the rest of
the tag after the marker, stripped, since the marker holds the first
colon). -/
def fontDecl (tag : String) : Option String :=
  if startsWithL "font-family:".data tag.data then
    some ⟨"font-family: '".data ++ trimL (tag.data.drop 12) ++ "'".data⟩
  else if startsWithL "font-size:".data tag.data then
    some ⟨"font-size: ".data ++ trimL (tag.data.drop 10) ++ "pt".data⟩
  else none

/-- Lines 173–192: the style declarations of a run, in emission order:
bold, italic, underline (each by a membership test, in this fixed
order), then the font declarations in the set's iteration order. -/
def buildStyles (cur : List String) : List String :=
  (if cur.contains "bold" then ["font-weight: bold"] else []) ++
  (if cur.contains "italic" then ["font-style: italic"] else []) ++
  (if cur.contains "underline" then ["text-decoration: underline"] else []) ++
  cur.filterMap fontDecl

/-- Lines 167–195: the HTML emitted for one run with tag set `cur` and
raw text `segment`. -/
def renderRun (cur : List String) (segment : List Char) : String :=
  let escaped_text := processSegment segment
  if cur.isEmpty then escaped_text
  else
    let style_attr := String.intercalate "; " (buildStyles cur)
    "<span style=\"" ++ style_attr ++ "\">" ++ escaped_text ++ "</span>"

/-- The inner lookahead loop, structurally recursive on a fuel bounding
the number of iterations; `runEnd` supplies the exact fuel `len - e`,
which the loop maintains, so the `0` case coincides with `e ≥ len`. -/
def runEndGo (f : Nat → List String) (cur : List String) (base len : Nat) :
    Nat → Nat → Nat
  | 0, e => e
  | fuel + 1, e =>
    if e < len then
      if listSetEq (f (base + e)) cur then runEndGo f cur base len fuel (e + 1)
      else e
    else e

/-- The inner lookahead loop (lines 160–165): starting from `e`, extend
the run while the position's tag set equals `cur`, never beyond `len`. -/
def runEnd (f : Nat → List String) (cur : List String) (base len e : Nat) : Nat :=
  runEndGo f cur base len (len - e) e

/-- The lookahead never moves backwards. -/
theorem runEndGo_ge (f : Nat → List String) (cur : List String)
    (base len : Nat) : ∀ fuel e, e ≤ runEndGo f cur base len fuel e := by
  intro fuel
  induction fuel with
  | zero => intro e; exact Nat.le_refl e
  | succ fuel ih =>
    intro e
    show (if e < len then _ else e) ≥ e
    split
    · split
      · exact Nat.le_trans (Nat.le_succ e) (ih (e + 1))
      · exact Nat.le_refl e
    · exact Nat.le_refl e

theorem runEnd_ge (f : Nat → List String) (cur : List String) (base len e : Nat) :
    e ≤ runEnd f cur base len e :=
  runEndGo_ge f cur base len (len - e) e

/-- The outer while loop, structurally recursive on a fuel bounding the
number of runs (each run covers at least one offset, so `len - pos`
fuel is always enough; the `0` case is unreachable from `paraRuns`). -/
def paraRunsGo (f : Nat → List String) (base : Nat) (para : List Char) :
    Nat → Nat → List (Nat × Nat)
  | 0, _ => []
  | fuel + 1, pos =>
    if pos < para.length then
      let e := runEnd f (f (base + pos)) base para.length (pos + 1)
      (pos, e) :: paraRunsGo f base para fuel e
    else []

/-- The outer while loop (lines 154–197) as the list of runs it walks:
each pair is the half-open offset interval `[start, stop)` of one run
(positions relative to the paragraph). -/
def paraRuns (f : Nat → List String) (base : Nat) (para : List Char) (pos : Nat) :
    List (Nat × Nat) :=
  paraRunsGo f base para (para.length - pos) pos

/-- The HTML lines the while loop appends for one non-empty paragraph. -/
def paraLines (f : Nat → List String) (base : Nat) (para : List Char) : List String :=
  (paraRuns f base para 0).map
    (fun r => renderRun (f (base + r.1)) ((para.drop r.1).take (r.2 - r.1)))

/-- The paragraph loop (lines 140–200) over the split content, carrying
`current_pos` and the `last_empty` flag, producing `html_lines`. -/
def renderParas (f : Nat → List String) :
    List (List Char) → Nat → Bool → List String
  | [], _, _ => []
  | para :: rest, current_pos, last_empty =>
    if para.isEmpty then
      if last_empty then renderParas f rest (current_pos + 1) true
      else "<p>&nbsp;</p>" :: renderParas f rest (current_pos + 1) true
    else
      ("<p>" :: (paraLines f current_pos para ++ ["</p>"])) ++
        renderParas f rest (current_pos + para.length + 1) false

/-- Python `str.split('\n')`: `n` newline characters give `n + 1` parts. -/
def splitNl : List Char → List (List Char)
  | [] => [[]]
  | c :: rest =>
    if c = '\n' then [] :: splitNl rest
    else
      match splitNl rest with
      | [] => [[c]]
      | p :: ps => (c :: p) :: ps

/-- The `html_lines` list built by `TemplateService.get_html_content`. -/
def htmlLines (content : String) (tags : Nat → List String) : List String :=
  renderParas (tagsAt tags) (splitNl content.data) 0 false

/-- `TemplateService.get_html_content` (lines 114–205):
`'\n'.join(html_lines)`. -/
def get_html_content (content : String) (tags : Nat → List String) : String :=
  String.intercalate "\n" (htmlLines content tags)

/-! ## Concrete inputs used by the claims -/

/-- The empty tag dict. -/
def noTags : Nat → List String := fun _ => []

/-- `{str(i): ["bold"] for i in range(0, 5)}`. -/
def boldTags : Nat → List String := fun p => if p < 5 then ["bold"] else []

/-- `{str(i): ["font-family:Arial", "font-size:14"] for i in range(0, 5)}`
when the set iteration order at each position yields the family tag
first. -/
def fontTagsFamilyFirst : Nat → List String :=
  fun p => if p < 5 then ["font-family:Arial", "font-size:14"] else []

/-- The same stored tags when the set iteration order at each position
yields the size tag first (Python string hashing is randomized, so both
orders occur across runs). -/
def fontTagsSizeFirst : Nat → List String :=
  fun p => if p < 5 then ["font-size:14", "font-family:Arial"] else []

/-- A tag map carrying the selection marker. -/
def selTags1 : Nat → List String :=
  fun p => if p = 0 then ["sel", "bold"] else ["sel"]

/-- The same tag map with the selection marker removed everywhere. -/
def selTags2 : Nat → List String := fun p => if p = 0 then ["bold"] else []

/-! ## C1: substitution is a sequential pass per key -/

/-- C1: the claim is false on the code.  `replace_variables` runs one
`str.replace` pass per key over the accumulated result, so with the
insertion order `a`, `b` the value `"{b}"` produced by the first pass is
rewritten to `"X"` by the second pass: the function returns `"X"`, not
`"{b}"` as claimed. -/
theorem C1_counterexample_recursive :
    replace_variables "{a}" [("a", "{b}"), ("b", "X")] = "X"
      ∧ ("X" : String) ≠ "{b}" := by
  constructor
  · decide
  · decide

theorem replace_variables_list_append (vs1 vs2 : List (String × String)) :
    ∀ t, replace_variables_list t (vs1 ++ vs2)
      = replace_variables_list (replace_variables_list t vs1) vs2 := by
  induction vs1 with
  | nil => intro t; rfl
  | cons kv rest ih => intro t; exact ih _

/-- C1 (amended): substitution applies one replace pass per key, in
insertion order, to the accumulated result (splitting the variable list
anywhere gives sequential composition).  Hence a replacement value
containing `{other_key}` IS substituted again when `other_key` occurs
later in the order (`a ↦ "\x7bb\x7d"`, then `b ↦ "X"` returns `"X"`),
and is left alone when `other_key` occurs earlier (order `b`, `a`
returns `"\x7bb\x7d"`). -/
theorem C1_amended_sequential :
    (∀ (t : String) (vs1 vs2 : List (String × String)),
        replace_variables t (vs1 ++ vs2)
          = replace_variables (replace_variables t vs1) vs2)
    ∧ replace_variables "{a}" [("a", "{b}"), ("b", "X")] = "X"
    ∧ replace_variables "{a}" [("b", "X"), ("a", "{b}")] = "{b}" := by
  refine ⟨?_, by decide, by decide⟩
  intro t vs1 vs2
  show (⟨replace_variables_list t.data (vs1 ++ vs2)⟩ : String) = _
  rw [replace_variables_list_append]
  rfl

/-! ## C2: order of the style declarations of a span -/

/-- C2: evaluation of the renderer at the failing input.  The font
declarations are appended while iterating the position's tag set
(`for tag in current_tags`), so their relative order follows the set's
iteration order: with the size tag first the emitted style is
`font-size: 14pt; font-family: 'Arial'`, not the fixed
family-before-size order the claim (and the repository's own test,
test_template_service.py line 79) demands for every iteration order. -/
theorem C2_font_order_hash_dependent :
    get_html_content "Hello World" fontTagsSizeFirst
      = "<p>\n<span style=\"font-size: 14pt; font-family: 'Arial'\">Hello</span>\n&nbsp;World\n</p>"
    ∧ get_html_content "Hello World" fontTagsFamilyFirst
      = "<p>\n<span style=\"font-family: 'Arial'; font-size: 14pt\">Hello</span>\n&nbsp;World\n</p>" :=
  ⟨by decide, by decide⟩

/-! ## C6: the selection marker is never rendered -/

/-- C6: the rendered HTML only depends on the tag lists with the
selection marker `sel` removed; adding or removing `sel` at arbitrary
offsets leaves the output unchanged. -/
theorem C6_sel_never_rendered (content : String) (t1 t2 : Nat → List String)
    (h : ∀ p, selFilter (t1 p) = selFilter (t2 p)) :
    get_html_content content t1 = get_html_content content t2 := by
  have ht : tagsAt t1 = tagsAt t2 := funext fun p => by
    unfold tagsAt
    rw [h p]
  unfold get_html_content htmlLines
  rw [ht]

theorem C6_sel_never_rendered_witness :
    get_html_content "Hi" selTags1 = get_html_content "Hi" selTags2 :=
  C6_sel_never_rendered "Hi" selTags1 selTags2 (fun p => by
    by_cases hp : p = 0 <;> simp [selTags1, selTags2, hp, selFilter])

/-! ## C4: escaping -/

/-- No raw angle bracket occurs in the list. -/
def noAngle (l : List Char) : Bool := l.all (fun c => c != '<' && c != '>')

/-- The tails that may legitimately follow a `&` in processed run text:
the five escape entities and the non-breaking-space entity. -/
def entityTail (l : List Char) : Bool :=
  startsWithL "amp;".data l || startsWithL "lt;".data l ||
    startsWithL "gt;".data l || startsWithL "quot;".data l ||
    startsWithL "#x27;".data l || startsWithL "nbsp;".data l

/-- Every ampersand in the list is the start of a known entity. -/
def ampOk : List Char → Bool
  | [] => true
  | c :: rest => (if c = '&' then entityTail rest else true) && ampOk rest

theorem htmlEscapeL_cons (c : Char) (s : List Char) :
    htmlEscapeL (c :: s) = escapeChar c ++ htmlEscapeL s := rfl

theorem replaceSpacesL_append (a b : List Char) :
    replaceSpacesL (a ++ b) = replaceSpacesL a ++ replaceSpacesL b := by
  simp [replaceSpacesL]

theorem escape_step_safe (c : Char) (r : List Char) :
    noAngle (replaceSpacesL (escapeChar c) ++ r) = noAngle r
      ∧ ampOk (replaceSpacesL (escapeChar c) ++ r) = ampOk r := by
  by_cases h1 : c = '&'
  · subst h1; exact ⟨rfl, rfl⟩
  by_cases h2 : c = '<'
  · subst h2; exact ⟨rfl, rfl⟩
  by_cases h3 : c = '>'
  · subst h3; exact ⟨rfl, rfl⟩
  by_cases h4 : c = '"'
  · subst h4; exact ⟨rfl, rfl⟩
  by_cases h5 : c = '\''
  · subst h5; exact ⟨rfl, rfl⟩
  by_cases h6 : c = ' '
  · subst h6; exact ⟨rfl, rfl⟩
  have hpiece : replaceSpacesL (escapeChar c) = [c] := by
    simp [escapeChar, replaceSpacesL, nbspChar, h1, h2, h3, h4, h5, h6]
  rw [hpiece]
  constructor
  · show noAngle (c :: r) = noAngle r
    simp [noAngle, h2, h3]
  · show ampOk (c :: r) = ampOk r
    simp [ampOk, h1]

/-- The per-run processed text never contains a raw angle bracket, and
its ampersands only start escape entities. -/
theorem processSegment_safe (s : List Char) :
    noAngle (processSegment s).data = true
      ∧ ampOk (processSegment s).data = true := by
  induction s with
  | nil => exact ⟨rfl, rfl⟩
  | cons c s ih =>
    have hd : (processSegment (c :: s)).data
        = replaceSpacesL (escapeChar c) ++ replaceSpacesL (htmlEscapeL s) := by
      show replaceSpacesL (htmlEscapeL (c :: s)) = _
      rw [htmlEscapeL_cons, replaceSpacesL_append]
    have hstep := escape_step_safe c (replaceSpacesL (htmlEscapeL s))
    have hid : (processSegment s).data = replaceSpacesL (htmlEscapeL s) := rfl
    rw [hid] at ih
    rw [hd]
    exact ⟨hstep.1.trans ih.1, hstep.2.trans ih.2⟩

theorem paraLines_no_tags (base : Nat) (para : List Char) :
    ∀ line ∈ paraLines (tagsAt noTags) base para,
      ∃ seg, line = processSegment seg := by
  intro line hline
  rcases List.mem_map.mp hline with ⟨r, _, rfl⟩
  exact ⟨_, rfl⟩

theorem renderParas_lines_shape (f : Nat → List String)
    (hf : ∀ base para line, line ∈ paraLines f base para →
      ∃ seg, line = processSegment seg) :
    ∀ (ps : List (List Char)) (pos : Nat) (b : Bool) (line : String),
      line ∈ renderParas f ps pos b →
      line = "<p>" ∨ line = "</p>" ∨ line = "<p>&nbsp;</p>"
        ∨ ∃ seg, line = processSegment seg := by
  intro ps
  induction ps with
  | nil => intro pos b line h; simp [renderParas] at h
  | cons para rest ih =>
    intro pos b line h
    by_cases hemp : para.isEmpty
    · by_cases hb : b
      · rw [show renderParas f (para :: rest) pos b
              = renderParas f rest (pos + 1) true by
            simp [renderParas, hemp, hb]] at h
        exact ih _ _ _ h
      · rw [show renderParas f (para :: rest) pos b
              = "<p>&nbsp;</p>" :: renderParas f rest (pos + 1) true by
            simp [renderParas, hemp, hb]] at h
        rcases List.mem_cons.mp h with h | h
        · exact Or.inr (Or.inr (Or.inl h))
        · exact ih _ _ _ h
    · rw [show renderParas f (para :: rest) pos b
            = ("<p>" :: (paraLines f pos para ++ ["</p>"]))
                ++ renderParas f rest (pos + para.length + 1) false by
          simp [renderParas, hemp]] at h
      rcases List.mem_append.mp h with h | h
      · rcases List.mem_cons.mp h with h | h
        · exact Or.inl h
        · rcases List.mem_append.mp h with h | h
          · exact Or.inr (Or.inr (Or.inr (hf _ _ _ h)))
          · rcases List.mem_cons.mp h with h | h
            · exact Or.inr (Or.inl h)
            · simp at h
      · exact ih _ _ _ h

/-- C4: the renderer's run texts are HTML-escaped before the space
substitution (`processSegment` is by definition the space substitution
applied to the escaped text): processed run text contains no raw `<` or
`>`, and each of its `&` starts an entity; consequently every rendered
line for a content with no tags is paragraph markup or such processed
text. -/
theorem C4_escaping :
    (∀ s : List Char,
        noAngle (processSegment s).data = true
          ∧ ampOk (processSegment s).data = true)
    ∧ (∀ (content : String) (line : String),
        line ∈ htmlLines content noTags →
        line = "<p>" ∨ line = "</p>" ∨ line = "<p>&nbsp;</p>"
          ∨ (noAngle line.data = true ∧ ampOk line.data = true)) := by
  refine ⟨processSegment_safe, ?_⟩
  intro content line h
  have hshape := renderParas_lines_shape (tagsAt noTags) paraLines_no_tags
    (splitNl content.data) 0 false line h
  rcases hshape with h1 | h1 | h1 | ⟨seg, rfl⟩
  · exact Or.inl h1
  · exact Or.inr (Or.inl h1)
  · exact Or.inr (Or.inr (Or.inl h1))
  · exact Or.inr (Or.inr (Or.inr (processSegment_safe seg)))

theorem C4_escaping_witness :
    ("a&lt;b" : String) = "<p>" ∨ ("a&lt;b" : String) = "</p>"
      ∨ ("a&lt;b" : String) = "<p>&nbsp;</p>"
      ∨ (noAngle ("a&lt;b" : String).data = true
          ∧ ampOk ("a&lt;b" : String).data = true) :=
  C4_escaping.2 "a<b" "a&lt;b" (by decide)

/-! ## C5: blank-line collapsing -/

/-- A tag map with `bold` exactly at absolute offsets 2 and 3. -/
def posTags23 : Nat → List String :=
  fun p => if p = 2 ∨ p = 3 then ["bold"] else []

/-- Number of paragraph elements among the rendered lines (lines whose
text begins `<p`, i.e. `<p>` openers and `<p>&nbsp;</p>` placeholders). -/
def countPLines : List String → Nat
  | [] => 0
  | l :: ls => (if startsWithL ['<', 'p'] l.data then 1 else 0) + countPLines ls

/-- Number of non-empty paragraphs. -/
def nonEmptyCount : List (List Char) → Nat
  | [] => 0
  | p :: rest => (if p.isEmpty then 0 else 1) + nonEmptyCount rest

/-- Number of maximal runs of consecutive empty paragraphs, given
whether the previous paragraph was an already-emitted blank. -/
def blankRuns : List (List Char) → Bool → Nat
  | [], _ => 0
  | p :: rest, b =>
    if p.isEmpty then (if b then 0 else 1) + blankRuns rest true
    else blankRuns rest false

theorem countPLines_append (a b : List String) :
    countPLines (a ++ b) = countPLines a + countPLines b := by
  induction a with
  | nil => simp [countPLines]
  | cons x xs ih => simp [countPLines, ih, Nat.add_assoc]

theorem renderRun_not_p (cur : List String) (seg : List Char) :
    startsWithL ['<', 'p'] (renderRun cur seg).data = false := by
  unfold renderRun
  by_cases hc : cur.isEmpty
  · rw [if_pos hc]
    cases hd : (processSegment seg).data with
    | nil => rfl
    | cons c t =>
      have hna := (processSegment_safe seg).1
      rw [hd] at hna
      have hlt : ¬c = '<' := by
        simp [noAngle] at hna
        exact hna.1.1
      have h2 : ('<' == c) = false := beq_eq_false_iff_ne.mpr (Ne.symm hlt)
      simp [startsWithL, h2]
  · rw [if_neg hc]
    rw [show ("<span style=\"" ++ String.intercalate "; " (buildStyles cur)
          ++ "\">" ++ processSegment seg ++ "</span>").data
        = "<span style=\"".data ++ (String.intercalate "; " (buildStyles cur)
          ++ "\">" ++ processSegment seg ++ "</span>").data from by
      simp [String.data_append]]
    rfl

theorem countPLines_paraLines (f : Nat → List String) (base : Nat)
    (para : List Char) : countPLines (paraLines f base para) = 0 := by
  unfold paraLines
  induction paraRuns f base para 0 with
  | nil => rfl
  | cons r rs ih => simp [countPLines, renderRun_not_p, ih]

/-- Paragraph-element count of the rendered lines: one per non-empty
paragraph plus one per maximal run of consecutive blank lines. -/
theorem countPLines_renderParas (f : Nat → List String) :
    ∀ (ps : List (List Char)) (pos : Nat) (b : Bool),
      countPLines (renderParas f ps pos b)
        = nonEmptyCount ps + blankRuns ps b := by
  intro ps
  induction ps with
  | nil => intro pos b; rfl
  | cons para rest ih =>
    intro pos b
    by_cases hemp : para.isEmpty
    · by_cases hb : b
      · rw [show renderParas f (para :: rest) pos b
              = renderParas f rest (pos + 1) true by
            simp [renderParas, hemp, hb]]
        rw [ih]
        simp [nonEmptyCount, blankRuns, hemp, hb]
      · rw [show renderParas f (para :: rest) pos b
              = "<p>&nbsp;</p>" :: renderParas f rest (pos + 1) true by
            simp [renderParas, hemp, hb]]
        rw [show countPLines ("<p>&nbsp;</p>" :: renderParas f rest (pos + 1) true)
              = 1 + countPLines (renderParas f rest (pos + 1) true) from rfl]
        rw [ih]
        simp [nonEmptyCount, blankRuns, hemp, hb]
        omega
    · rw [show renderParas f (para :: rest) pos b
            = ("<p>" :: (paraLines f pos para ++ ["</p>"]))
                ++ renderParas f rest (pos + para.length + 1) false by
          simp [renderParas, hemp]]
      rw [countPLines_append]
      rw [show countPLines ("<p>" :: (paraLines f pos para ++ ["</p>"]))
            = 1 + countPLines (paraLines f pos para ++ ["</p>"]) from rfl]
      rw [countPLines_append, countPLines_paraLines, ih,
        show countPLines ["</p>"] = 0 from rfl]
      simp [nonEmptyCount, blankRuns, hemp]
      omega

/-- C5: the first blank line of a run emits one placeholder paragraph,
later consecutive blank lines emit nothing (paragraph elements = one
per non-empty paragraph plus one per maximal blank run); the two
concrete contents render 3 resp. 2 paragraph elements; and the skipped
blank line still advances the absolute offset (bold stored at absolute
offsets 2–3 lands exactly on `Hi` after two blank lines). -/
theorem C5_blank_line_collapsing :
    (∀ (f : Nat → List String) (ps : List (List Char)) (pos : Nat) (b : Bool),
        countPLines (renderParas f ps pos b)
          = nonEmptyCount ps + blankRuns ps b)
    ∧ countSub "<p".data (get_html_content "Hello\n\nWorld" noTags).data = 3
    ∧ countSub "<p".data (get_html_content "Hello\nWorld" noTags).data = 2
    ∧ get_html_content "\n\nHi" posTags23
        = "<p>&nbsp;</p>\n<p>\n<span style=\"font-weight: bold\">Hi</span>\n</p>" :=
  ⟨countPLines_renderParas, by decide, by decide, by decide⟩

/-! ## C3: run collapsing -/

theorem listSetEq_refl (a : List String) : listSetEq a a = true := by
  simp [listSetEq, List.all_eq_true]

theorem runEndGo_le (f : Nat → List String) (cur : List String)
    (base len : Nat) : ∀ fuel e, e ≤ len →
      runEndGo f cur base len fuel e ≤ len := by
  intro fuel
  induction fuel with
  | zero => intro e he; exact he
  | succ fuel ih =>
    intro e he
    show (if e < len then _ else e) ≤ len
    split
    · split
      · exact ih (e + 1) (by omega)
      · exact he
    · exact he

theorem runEnd_le (f : Nat → List String) (cur : List String)
    (base len e : Nat) (he : e ≤ len) : runEnd f cur base len e ≤ len :=
  runEndGo_le f cur base len (len - e) e he

theorem runEndGo_uniform (f : Nat → List String) (cur : List String)
    (base len : Nat) : ∀ fuel e, len ≤ e + fuel →
      ∀ i, e ≤ i → i < runEndGo f cur base len fuel e →
        listSetEq (f (base + i)) cur = true := by
  intro fuel
  induction fuel with
  | zero =>
    intro e hfe i h1 h2
    simp [runEndGo] at h2
    omega
  | succ fuel ih =>
    intro e hfe i h1 h2
    by_cases hlt : e < len
    · by_cases hset : listSetEq (f (base + e)) cur = true
      · have h2' : i < runEndGo f cur base len fuel (e + 1) := by
          simpa [runEndGo, hlt, hset] using h2
        rcases Nat.eq_or_lt_of_le h1 with rfl | h1'
        · exact hset
        · exact ih (e + 1) (by omega) i h1' h2'
      · rw [show runEndGo f cur base len (fuel + 1) e = e by
            simp [runEndGo, hlt, hset]] at h2
        omega
    · rw [show runEndGo f cur base len (fuel + 1) e = e by
          simp [runEndGo, hlt]] at h2
      omega

theorem runEnd_uniform (f : Nat → List String) (cur : List String)
    (base len e : Nat) :
    ∀ i, e ≤ i → i < runEnd f cur base len e →
      listSetEq (f (base + i)) cur = true :=
  runEndGo_uniform f cur base len (len - e) e (by omega)

theorem runEndGo_stop (f : Nat → List String) (cur : List String)
    (base len : Nat) : ∀ fuel e, len ≤ e + fuel →
      runEndGo f cur base len fuel e < len →
      listSetEq (f (base + runEndGo f cur base len fuel e)) cur = false := by
  intro fuel
  induction fuel with
  | zero =>
    intro e hfe h
    simp [runEndGo] at h
    omega
  | succ fuel ih =>
    intro e hfe h
    by_cases hlt : e < len
    · by_cases hset : listSetEq (f (base + e)) cur = true
      · rw [show runEndGo f cur base len (fuel + 1) e
              = runEndGo f cur base len fuel (e + 1) by
            simp [runEndGo, hlt, hset]] at h ⊢
        exact ih (e + 1) (by omega) h
      · rw [show runEndGo f cur base len (fuel + 1) e = e by
            simp [runEndGo, hlt, hset]] at h ⊢
        exact Bool.eq_false_iff.mpr hset
    · rw [show runEndGo f cur base len (fuel + 1) e = e by
          simp [runEndGo, hlt]] at h
      omega

theorem runEnd_stop (f : Nat → List String) (cur : List String)
    (base len e : Nat) (h : runEnd f cur base len e < len) :
    listSetEq (f (base + runEnd f cur base len e)) cur = false :=
  runEndGo_stop f cur base len (len - e) e (by omega) h

theorem paraRunsGo_sound (f : Nat → List String) (base : Nat)
    (para : List Char) : ∀ fuel pos, ∀ r ∈ paraRunsGo f base para fuel pos,
      pos ≤ r.1 ∧ r.1 < r.2 ∧ r.2 ≤ para.length
        ∧ ∀ i, r.1 ≤ i → i < r.2 →
            listSetEq (f (base + i)) (f (base + r.1)) = true := by
  intro fuel
  induction fuel with
  | zero => intro pos r hr; simp [paraRunsGo] at hr
  | succ fuel ih =>
    intro pos r hr
    by_cases hlt : pos < para.length
    · rw [show paraRunsGo f base para (fuel + 1) pos
            = (pos, runEnd f (f (base + pos)) base para.length (pos + 1))
                :: paraRunsGo f base para fuel
                  (runEnd f (f (base + pos)) base para.length (pos + 1)) by
          simp [paraRunsGo, hlt]] at hr
    -- the head run and the runs of the recursive call
      rcases List.mem_cons.mp hr with rfl | hr
      · refine ⟨Nat.le_refl _, ?_, ?_, ?_⟩
        · have := runEnd_ge f (f (base + pos)) base para.length (pos + 1)
          omega
        · exact runEnd_le f (f (base + pos)) base para.length (pos + 1)
            (by omega)
        · intro i h1 h2
          rcases Nat.eq_or_lt_of_le h1 with rfl | h1'
          · exact listSetEq_refl _
          · exact runEnd_uniform f (f (base + pos)) base para.length
              (pos + 1) i (by omega) h2
      · have h := ih _ r hr
        have := runEnd_ge f (f (base + pos)) base para.length (pos + 1)
        exact ⟨by omega, h.2.1, h.2.2⟩
    · simp [paraRunsGo, hlt] at hr

theorem paraRunsGo_chain (f : Nat → List String) (base : Nat)
    (para : List Char) : ∀ fuel pos,
      List.Chain' (fun r r' => r'.1 = r.2
          ∧ listSetEq (f (base + r'.1)) (f (base + r.1)) = false)
        (paraRunsGo f base para fuel pos) := by
  intro fuel
  induction fuel with
  | zero => simp [paraRunsGo]
  | succ fuel ih =>
    intro pos
    by_cases hlt : pos < para.length
    · rw [show paraRunsGo f base para (fuel + 1) pos
            = (pos, runEnd f (f (base + pos)) base para.length (pos + 1))
                :: paraRunsGo f base para fuel
                  (runEnd f (f (base + pos)) base para.length (pos + 1)) by
          simp [paraRunsGo, hlt]]
      rw [List.chain'_cons']
      refine ⟨?_, ih _⟩
      intro r' hr'
      cases fuel with
      | zero => simp [paraRunsGo] at hr'
      | succ fuel2 =>
        by_cases hlt2 : runEnd f (f (base + pos)) base para.length (pos + 1)
            < para.length
        · rw [show paraRunsGo f base para (fuel2 + 1)
                (runEnd f (f (base + pos)) base para.length (pos + 1))
              = (runEnd f (f (base + pos)) base para.length (pos + 1),
                  runEnd f
                    (f (base + runEnd f (f (base + pos)) base para.length
                      (pos + 1)))
                    base para.length
                    (runEnd f (f (base + pos)) base para.length (pos + 1) + 1))
                :: paraRunsGo f base para fuel2
                  (runEnd f
                    (f (base + runEnd f (f (base + pos)) base para.length
                      (pos + 1)))
                    base para.length
                    (runEnd f (f (base + pos)) base para.length (pos + 1) + 1)) by
              simp [paraRunsGo, hlt2]] at hr'
          simp only [List.head?_cons, Option.mem_def, Option.some.injEq] at hr'
          subst hr'
          exact ⟨rfl, runEnd_stop f (f (base + pos)) base para.length
            (pos + 1) hlt2⟩
        · simp [paraRunsGo, hlt2] at hr'
    · simp [paraRunsGo, hlt]

theorem paraRunsGo_nil_le (f : Nat → List String) (base : Nat)
    (para : List Char) : ∀ fuel pos, para.length ≤ pos + fuel →
      paraRunsGo f base para fuel pos = [] → para.length ≤ pos := by
  intro fuel pos hfe hnil
  cases fuel with
  | zero => omega
  | succ fuel =>
    by_cases hlt : pos < para.length
    · simp [paraRunsGo, hlt] at hnil
    · omega

theorem paraRunsGo_cover (f : Nat → List String) (base : Nat)
    (para : List Char) : ∀ fuel pos, para.length ≤ pos + fuel →
      (pos < para.length → ∃ e rest,
        paraRunsGo f base para fuel pos = (pos, e) :: rest)
      ∧ ∀ r, (paraRunsGo f base para fuel pos).getLast? = some r →
          r.2 = para.length := by
  intro fuel
  induction fuel with
  | zero =>
    intro pos hfe
    refine ⟨fun h => by omega, fun r hr => by simp [paraRunsGo] at hr⟩
  | succ fuel ih =>
    intro pos hfe
    by_cases hlt : pos < para.length
    · have hcons : paraRunsGo f base para (fuel + 1) pos
          = (pos, runEnd f (f (base + pos)) base para.length (pos + 1))
              :: paraRunsGo f base para fuel
                (runEnd f (f (base + pos)) base para.length (pos + 1)) := by
        simp [paraRunsGo, hlt]
      have hge := runEnd_ge f (f (base + pos)) base para.length (pos + 1)
      have hle := runEnd_le f (f (base + pos)) base para.length (pos + 1)
        (by omega)
      refine ⟨fun _ => ⟨_, _, hcons⟩, ?_⟩
      intro r hr
      rw [hcons] at hr
      cases hrec : paraRunsGo f base para fuel
          (runEnd f (f (base + pos)) base para.length (pos + 1)) with
      | nil =>
        rw [hrec] at hr
        simp at hr
        have := paraRunsGo_nil_le f base para fuel
          (runEnd f (f (base + pos)) base para.length (pos + 1))
          (by omega) hrec
        subst hr
        show runEnd f (f (base + pos)) base para.length (pos + 1) = para.length
        omega
      | cons y l =>
        rw [hrec] at hr
        rw [List.getLast?_cons_cons] at hr
        have h2 := (ih (runEnd f (f (base + pos)) base para.length (pos + 1))
          (by omega)).2 r
        rw [hrec] at h2
        exact h2 hr
    · refine ⟨fun h => absurd h hlt, fun r hr => ?_⟩
      simp [paraRunsGo, hlt] at hr

/-- C3: within a non-empty paragraph the while loop walks runs that
are non-empty, lie inside the paragraph, carry a uniform tag set equal
to the tag set at the run start, start where the previous run stopped
with a tag set that differs from the previous run's (so a run is never
re-opened), start at offset 0 and end at the paragraph length; the
concrete bold example renders a single span around `Hello` with `World`
unwrapped. -/
theorem C3_run_collapsing :
    (∀ (f : Nat → List String) (base : Nat) (para : List Char),
        ∀ r ∈ paraRuns f base para 0,
          r.1 < r.2 ∧ r.2 ≤ para.length
            ∧ ∀ i, r.1 ≤ i → i < r.2 →
                listSetEq (f (base + i)) (f (base + r.1)) = true)
    ∧ (∀ (f : Nat → List String) (base : Nat) (para : List Char),
        List.Chain' (fun r r' => r'.1 = r.2
            ∧ listSetEq (f (base + r'.1)) (f (base + r.1)) = false)
          (paraRuns f base para 0))
    ∧ (∀ (f : Nat → List String) (base : Nat) (para : List Char),
        para ≠ [] → ∃ e rest, paraRuns f base para 0 = (0, e) :: rest)
    ∧ (∀ (f : Nat → List String) (base : Nat) (para : List Char)
        (r : Nat × Nat),
        (paraRuns f base para 0).getLast? = some r → r.2 = para.length)
    ∧ get_html_content "Hello World" boldTags
        = "<p>\n<span style=\"font-weight: bold\">Hello</span>\n&nbsp;World\n</p>"
    ∧ countSub "<span".data (get_html_content "Hello World" boldTags).data = 1 := by
  refine ⟨?_, ?_, ?_, ?_, by decide, by decide⟩
  · intro f base para r hr
    exact (paraRunsGo_sound f base para (para.length - 0) 0 r hr).2
  · intro f base para
    exact paraRunsGo_chain f base para (para.length - 0) 0
  · intro f base para hpara
    exact (paraRunsGo_cover f base para (para.length - 0) 0 (by omega)).1
      (by cases para with
        | nil => exact absurd rfl hpara
        | cons c t => simp)
  · intro f base para r hr
    exact (paraRunsGo_cover f base para (para.length - 0) 0 (by omega)).2 r hr

theorem C3_run_collapsing_witness :
    (0 : Nat) < 5 ∧ 5 ≤ ("Hello World".data).length
      ∧ listSetEq (tagsAt boldTags (0 + 1)) (tagsAt boldTags (0 + 0)) = true := by
  have h := C3_run_collapsing.1 (tagsAt boldTags) 0 "Hello World".data
    (0, 5) (by decide)
  exact ⟨h.1, h.2.1, h.2.2 1 (by decide) (by decide)⟩

/-! ## C7 and C8: substring machinery -/

theorem startsWithL_self_append (q t : List Char) :
    startsWithL q (q ++ t) = true := by
  induction q with
  | nil => rfl
  | cons c cs ih => simp [startsWithL, ih]

theorem startsWithL_iff (q s : List Char) :
    startsWithL q s = true ↔ ∃ t, s = q ++ t := by
  constructor
  · intro h
    induction q generalizing s with
    | nil => exact ⟨s, rfl⟩
    | cons c cs ih =>
      cases s with
      | nil => simp [startsWithL] at h
      | cons x xs =>
        simp [startsWithL] at h
        rcases ih xs h.2 with ⟨t, rfl⟩
        exact ⟨t, by simp [h.1]⟩
  · rintro ⟨t, rfl⟩
    exact startsWithL_self_append q t

theorem containsSub_iff (q s : List Char) :
    containsSub q s = true ↔ ∃ a b, s = a ++ q ++ b := by
  induction s with
  | nil =>
    constructor
    · intro h
      cases q with
      | nil => exact ⟨[], [], rfl⟩
      | cons c cs => simp [containsSub, startsWithL] at h
    · rintro ⟨a, b, hab⟩
      cases q with
      | nil => rfl
      | cons c cs => simp at hab
  | cons x xs ih =>
    constructor
    · intro h
      rw [show containsSub q (x :: xs)
            = (startsWithL q (x :: xs) || containsSub q xs) from rfl,
        Bool.or_eq_true] at h
      rcases h with h | h
      · rcases (startsWithL_iff q _).mp h with ⟨t, ht⟩
        exact ⟨[], t, by simp [ht]⟩
      · rcases ih.mp h with ⟨a, b, rfl⟩
        exact ⟨x :: a, b, rfl⟩
    · rintro ⟨a, b, hab⟩
      rw [show containsSub q (x :: xs)
            = (startsWithL q (x :: xs) || containsSub q xs) from rfl,
        Bool.or_eq_true]
      cases a with
      | nil =>
        left
        rw [show x :: xs = q ++ b by simpa using hab]
        exact startsWithL_self_append q b
      | cons y ys =>
        right
        simp at hab
        exact ih.mpr ⟨ys, b, by simp [hab.2]⟩

theorem containsSub_self_append (q X : List Char) :
    containsSub q (q ++ X) = true := by
  cases q with
  | nil =>
    cases X with
    | nil => rfl
    | cons y ys => rfl
  | cons c cs =>
    rw [show containsSub (c :: cs) ((c :: cs) ++ X)
          = (startsWithL (c :: cs) ((c :: cs) ++ X)
              || containsSub (c :: cs) (cs ++ X)) from rfl,
      Bool.or_eq_true]
    exact Or.inl (startsWithL_self_append _ _)

theorem containsSub_append_left (a s : List Char) (q : List Char)
    (h : containsSub q s = true) : containsSub q (a ++ s) = true := by
  rcases (containsSub_iff q s).mp h with ⟨x, y, rfl⟩
  exact (containsSub_iff q _).mpr ⟨a ++ x, y, by simp⟩

theorem containsSub_cons_of (c : Char) (s q : List Char)
    (h : containsSub q s = true) : containsSub q (c :: s) = true :=
  containsSub_append_left [c] s q h

/-- Two right-brace-free lists followed by a `}` agree up to the first
`}`, so they are equal. -/
theorem brace_free_eq (nd : List Char) :
    ∀ (kd b t : List Char), nd.all (fun c => c != '}') = true →
      kd.all (fun c => c != '}') = true →
      nd ++ '}' :: b = kd ++ '}' :: t → nd = kd := by
  induction nd with
  | nil =>
    intro kd b t _ hk h
    cases kd with
    | nil => rfl
    | cons y ys =>
      exfalso
      simp at h hk
      exact hk.1 h.1.symm
  | cons x xs ih =>
    intro kd b t hn hk h
    cases kd with
    | nil =>
      exfalso
      simp at h hn
      exact hn.1 h.1
    | cons y ys =>
      simp at h hn hk
      rw [h.1, ih ys b t (by simp [List.all_eq_true]; exact hn.2)
        (by simp [List.all_eq_true]; exact hk.2) h.2]

/-- A `{`-free block cannot contain the start of a `{...` occurrence:
if `u ++ t` has an occurrence of `'{' :: w` at offset `a.length`, the
occurrence starts at or after `u.length`. -/
theorem no_lbrace_block :
    ∀ (u a w b t : List Char), u.all (fun c => c != '{') = true →
      a ++ ('{' :: w) ++ b = u ++ t → u.length ≤ a.length := by
  intro u
  induction u with
  | nil => intro a w b t _ _; exact Nat.zero_le _
  | cons y ys ih =>
    intro a w b t hu h
    simp at hu
    cases a with
    | nil =>
      exfalso
      simp at h
      exact hu.1 h.1.symm
    | cons x xa =>
      simp at h
      have := ih xa w b t (by simp [List.all_eq_true]; exact hu.2)
        (by simpa using h.2)
      simp
      omega

/-- A `\x7bname\x7d` occurrence cannot overlap a `\x7bkey\x7d`
occurrence when both identifiers are brace-free and distinct: in a
string starting with the key pattern, any name-pattern occurrence
starts at or after the end of the key pattern. -/
theorem pat_no_overlap (nd kd : List Char)
    (hnd2 : nd.all (fun c => c != '}') = true)
    (hkd1 : kd.all (fun c => c != '{') = true)
    (hkd2 : kd.all (fun c => c != '}') = true)
    (hne : nd ≠ kd) :
    ∀ (a b t : List Char),
      a ++ ('{' :: (nd ++ ['}'])) ++ b = ('{' :: (kd ++ ['}'])) ++ t →
      ('{' :: (kd ++ ['}'])).length ≤ a.length := by
  intro a b t h
  cases a with
  | nil =>
    exfalso
    simp at h
    exact hne (brace_free_eq nd kd b t hnd2 hkd2 (by simpa using h))
  | cons x xa =>
    simp at h
    have hblock := no_lbrace_block (kd ++ ['}']) xa (nd ++ ['}']) b t
      (by
        rw [List.all_eq_true] at hkd1 ⊢
        intro c hc
        rcases List.mem_append.mp hc with hc | hc
        · exact hkd1 c hc
        · simp at hc
          subst hc
          decide)
      (by simpa using h.2)
    simp at hblock ⊢
    omega

theorem append_split_of_le (p : List Char) :
    ∀ (a q b t : List Char), a ++ q ++ b = p ++ t → p.length ≤ a.length →
      ∃ a2, a = p ++ a2 ∧ a2 ++ q ++ b = t := by
  induction p with
  | nil => intro a q b t h _; exact ⟨a, rfl, h⟩
  | cons y ys ih =>
    intro a q b t h hlen
    cases a with
    | nil => simp at hlen
    | cons x xa =>
      simp at h hlen
      rcases ih xa q b t (by simpa using h.2) (by omega) with ⟨a2, ha, ht⟩
      exact ⟨a2, by simp [h.1, ha], ht⟩

/-! ## C7: missing parameters are left untouched -/

/-- A usable substitution key or placeholder identifier: non-empty and
free of braces (the placeholder syntax). -/
def validIdentB (k : String) : Bool :=
  (k != "") && k.data.all (fun c => c != '{' && c != '}')

theorem validIdentB_props (k : String) (h : validIdentB k = true) :
    k.data.all (fun c => c != '{') = true
      ∧ k.data.all (fun c => c != '}') = true := by
  simp [validIdentB, List.all_eq_true] at h
  rw [List.all_eq_true, List.all_eq_true]
  constructor
  · intro c hc
    simp [(h.2 c hc).1]
  · intro c hc
    simp [(h.2 c hc).2]

theorem replaceGo_cons (pat rep : List Char) (fuel : Nat) (c : Char)
    (rest : List Char) :
    replaceGo pat rep (fuel + 1) (c :: rest)
      = if pat ≠ [] ∧ startsWithL pat (c :: rest) = true
        then rep ++ replaceGo pat rep fuel ((c :: rest).drop pat.length)
        else c :: replaceGo pat rep fuel rest := rfl

/-- The replace scan copies a `{`-free block verbatim: no occurrence of
the pattern `\x7bkey\x7d` can start inside it. -/
theorem replaceGo_lbrace_free_prefix (kd rep : List Char) :
    ∀ (v : List Char), v.all (fun c => c != '{') = true →
      ∀ (fuel : Nat) (s : List Char),
        replaceGo ('{' :: (kd ++ ['}'])) rep fuel (v ++ s)
          = v ++ replaceGo ('{' :: (kd ++ ['}'])) rep (fuel - v.length) s := by
  intro v
  induction v with
  | nil => intro _ fuel s; simp
  | cons x xv ih =>
    intro hv fuel s
    simp at hv
    cases fuel with
    | zero => simp [replaceGo]
    | succ fuel =>
      rw [show (x :: xv) ++ s = x :: (xv ++ s) from rfl, replaceGo_cons]
      rw [if_neg]
      · rw [ih (by simp [List.all_eq_true]; exact hv.2) fuel s]
        simp [Nat.succ_sub_succ]
      · rintro ⟨-, hsw⟩
        rw [show startsWithL ('{' :: (kd ++ ['}'])) (x :: (xv ++ s))
              = (('{' : Char) == x && startsWithL (kd ++ ['}']) (xv ++ s))
            from rfl, Bool.and_eq_true] at hsw
        exact hv.1 (eq_of_beq hsw.1).symm

/-- One `str.replace` pass for a distinct, brace-free key preserves the
presence of the literal `\x7bname\x7d`. -/
theorem replaceGo_preserves (nd kd rep : List Char)
    (hnd1 : nd.all (fun c => c != '{') = true)
    (hnd2 : nd.all (fun c => c != '}') = true)
    (hkd1 : kd.all (fun c => c != '{') = true)
    (hkd2 : kd.all (fun c => c != '}') = true)
    (hne : nd ≠ kd) :
    ∀ (fuel : Nat) (s : List Char),
      containsSub ('{' :: (nd ++ ['}'])) s = true →
      containsSub ('{' :: (nd ++ ['}']))
        (replaceGo ('{' :: (kd ++ ['}'])) rep fuel s) = true := by
  intro fuel
  induction fuel with
  | zero => intro s h; exact h
  | succ fuel ih =>
    intro s h
    cases s with
    | nil => exact h
    | cons c rest =>
      rw [replaceGo_cons]
      by_cases hcond : ('{' :: (kd ++ ['}'])) ≠ []
          ∧ startsWithL ('{' :: (kd ++ ['}'])) (c :: rest) = true
      · rw [if_pos hcond]
        rcases (containsSub_iff _ _).mp h with ⟨a, b, hab⟩
        rcases (startsWithL_iff _ _).mp hcond.2 with ⟨t, hct⟩
        have heq : a ++ ('{' :: (nd ++ ['}'])) ++ b
            = ('{' :: (kd ++ ['}'])) ++ t := by rw [← hab, ← hct]
        have hover := pat_no_overlap nd kd hnd2 hkd1 hkd2 hne a b t heq
        rcases append_split_of_le ('{' :: (kd ++ ['}'])) a
          ('{' :: (nd ++ ['}'])) b t heq hover with ⟨a2, _, ht⟩
        have hqt : containsSub ('{' :: (nd ++ ['}'])) t = true :=
          (containsSub_iff _ _).mpr ⟨a2, b, ht.symm⟩
        have hdrop : (c :: rest).drop ('{' :: (kd ++ ['}'])).length = t := by
          rw [hct]
          exact List.drop_left _ t
        rw [hdrop]
        exact containsSub_append_left rep _ _ (ih t hqt)
      · rw [if_neg hcond]
        rw [show containsSub ('{' :: (nd ++ ['}'])) (c :: rest)
              = (startsWithL ('{' :: (nd ++ ['}'])) (c :: rest)
                  || containsSub ('{' :: (nd ++ ['}'])) rest) from rfl,
          Bool.or_eq_true] at h
        rcases h with hq | hq
        · rcases (startsWithL_iff _ _).mp hq with ⟨t', ht'⟩
          simp at ht'
          rw [ht'.2,
            show nd ++ '}' :: t' = (nd ++ ['}']) ++ t' by simp,
            replaceGo_lbrace_free_prefix kd rep (nd ++ ['}'])
              (by
                rw [List.all_eq_true] at hnd1 ⊢
                intro x hx
                rcases List.mem_append.mp hx with hx | hx
                · exact hnd1 x hx
                · simp at hx
                  subst hx
                  decide)
              fuel t', ht'.1]
          exact containsSub_self_append ('{' :: (nd ++ ['}'])) _
        · exact containsSub_cons_of c _ _ (ih rest hq)

/-- C7: when `name` is absent from the keys of `variables` (all
brace-free identifiers), `replace_variables` leaves every literal
`\x7bname\x7d` occurrence in place (and, being a total function, it
raises nothing and performs no missing-parameter detection). -/
theorem C7_missing_param_untouched (template : String)
    (vars : List (String × String)) (name : String)
    (hn : validIdentB name = true)
    (hv : ∀ kv ∈ vars, validIdentB kv.1 = true ∧ kv.1 ≠ name)
    (hocc : containsSub ('{' :: (name.data ++ ['}'])) template.data = true) :
    containsSub ('{' :: (name.data ++ ['}']))
      (replace_variables template vars).data = true := by
  suffices h : ∀ (vs : List (String × String)) (t : List Char),
      (∀ kv ∈ vs, validIdentB kv.1 = true ∧ kv.1 ≠ name) →
      containsSub ('{' :: (name.data ++ ['}'])) t = true →
      containsSub ('{' :: (name.data ++ ['}']))
        (replace_variables_list t vs) = true by
    exact h vars template.data hv hocc
  intro vs
  induction vs with
  | nil => intro t _ h; exact h
  | cons kv rest ih =>
    intro t hkv h
    apply ih _ (fun kv2 hm => hkv kv2 (List.mem_cons_of_mem _ hm))
    have hp := validIdentB_props kv.1 (hkv kv (List.mem_cons_self _ _)).1
    have hnp := validIdentB_props name hn
    have hne : name.data ≠ kv.1.data := by
      intro hdd
      exact (hkv kv (List.mem_cons_self _ _)).2
        (congrArg String.mk hdd.symm)
    exact replaceGo_preserves name.data kv.1.data kv.2.data
      hnp.1 hnp.2 hp.1 hp.2 hne t.length t h

theorem C7_missing_param_untouched_witness :
    containsSub ('{' :: ("name".data ++ ['}']))
      (replace_variables "Hi {name}" [("code", "42")]).data = true :=
  C7_missing_param_untouched "Hi {name}" [("code", "42")] "name"
    (by decide) (by decide) (by decide)

/-! ## C8: parameter extraction -/

theorem all_takeWhile (p : Char → Bool) (l : List Char) :
    (l.takeWhile p).all p = true := by
  induction l with
  | nil => rfl
  | cons c t ih =>
    by_cases hp : p c
    · simp [List.takeWhile_cons, hp, ih]
    · simp [List.takeWhile_cons, hp]

theorem dropWhile_head_false (p : Char → Bool) (l : List Char) :
    ∀ y ys, l.dropWhile p = y :: ys → p y = false := by
  induction l with
  | nil => intro y ys h; simp at h
  | cons c t ih =>
    intro y ys h
    by_cases hp : p c
    · rw [List.dropWhile_cons_of_pos hp] at h
      exact ih y ys h
    · rw [List.dropWhile_cons_of_neg hp] at h
      rw [← (List.cons.injEq c t y ys).mp h |>.1]
      exact Bool.eq_false_iff.mpr hp

theorem findParamsGo_succ_cons (fuel : Nat) (c : Char) (rest : List Char) :
    findParamsGo (fuel + 1) (c :: rest)
      = if c = '{' then
          (if (rest.takeWhile (fun x => x != '}')).isEmpty then
            findParamsGo fuel rest
          else if (rest.dropWhile (fun x => x != '}')).isEmpty then
            findParamsGo fuel rest
          else ⟨rest.takeWhile (fun x => x != '}')⟩
              :: findParamsGo fuel (rest.dropWhile (fun x => x != '}')).tail)
        else findParamsGo fuel rest := rfl

/-- Every identifier the scan returns is non-empty, free of `}`, and
does occur in the text wrapped in literal braces. -/
theorem findParamsGo_sound :
    ∀ (fuel : Nat) (s : List Char), ∀ x ∈ findParamsGo fuel s,
      x ≠ "" ∧ x.data.all (fun c => c != '}') = true
        ∧ containsSub ('{' :: (x.data ++ ['}'])) s = true := by
  intro fuel
  induction fuel with
  | zero => intro s x hx; simp [findParamsGo] at hx
  | succ fuel ih =>
    intro s x hx
    cases s with
    | nil => simp [findParamsGo] at hx
    | cons c rest =>
      rw [findParamsGo_succ_cons] at hx
      by_cases hc : c = '{'
      · rw [if_pos hc] at hx
        by_cases h1 : (rest.takeWhile (fun x => x != '}')).isEmpty
        · rw [if_pos h1] at hx
          have h := ih rest x hx
          exact ⟨h.1, h.2.1, containsSub_cons_of c rest _ h.2.2⟩
        · rw [if_neg h1] at hx
          by_cases h2 : (rest.dropWhile (fun x => x != '}')).isEmpty
          · rw [if_pos h2] at hx
            have h := ih rest x hx
            exact ⟨h.1, h.2.1, containsSub_cons_of c rest _ h.2.2⟩
          · rw [if_neg h2] at hx
            set r0 := rest.takeWhile (fun x => x != '}') with hr0
            -- the drop part starts with the closing brace
            obtain ⟨tl, hdw⟩ : ∃ tl,
                rest.dropWhile (fun x => x != '}') = '}' :: tl := by
              cases hdw : rest.dropWhile (fun x => x != '}') with
              | nil => rw [hdw] at h2; simp at h2
              | cons y ys =>
                have hy := dropWhile_head_false _ rest y ys hdw
                simp at hy
                exact ⟨ys, by rw [hy]⟩
            have hrest : rest = r0 ++ '}' :: tl := by
              rw [hr0, ← hdw]
              exact (List.takeWhile_append_dropWhile _ _).symm
            rw [hdw] at hx
            rcases List.mem_cons.mp hx with rfl | hx'
            · refine ⟨?_, ?_, ?_⟩
              · intro hx0
                have hr0nil : r0 = [] := congrArg String.data hx0
                rw [hr0nil] at h1
                exact h1 rfl
              · exact all_takeWhile _ rest
              · subst hc
                rw [hrest,
                  show ('{' :: (r0 ++ '}' :: tl))
                    = ('{' :: (r0 ++ ['}'])) ++ tl by simp]
                exact containsSub_self_append ('{' :: (r0 ++ ['}'])) tl
            · have h := ih tl x hx'
              refine ⟨h.1, h.2.1, ?_⟩
              apply containsSub_cons_of
              rw [hrest, show r0 ++ '}' :: tl = (r0 ++ ['}']) ++ tl by simp]
              exact containsSub_append_left _ tl _ h.2.2
      · rw [if_neg hc] at hx
        have h := ih rest x hx
        exact ⟨h.1, h.2.1, containsSub_cons_of c rest _ h.2.2⟩

/-- C8 (amended): extraction is the left-to-right non-overlapping regex
scan: every extracted identifier is a non-empty, `}`-free string that
occurs wrapped in literal braces; the concrete template extracts
exactly `name` and `code`, and substitution on it gives the expected
text. -/
theorem C8_extraction_sound :
    (∀ (s : String), ∀ x ∈ validate_template_params s,
        x ≠ "" ∧ x.data.all (fun c => c != '}') = true
          ∧ containsSub ('{' :: (x.data ++ ['}'])) s.data = true)
    ∧ validate_template_params "Hi {name}, your code is {code}"
        = {"name", "code"}
    ∧ replace_variables "Hi {name}, your code is {code}"
        [("name", "Ann"), ("code", "42")] = "Hi Ann, your code is 42" := by
  refine ⟨?_, by decide, by decide⟩
  intro s x hx
  exact findParamsGo_sound s.data.length s.data x (List.mem_toFinset.mp hx)

theorem C8_extraction_witness :
    ("name" : String) ≠ ""
      ∧ ("name" : String).data.all (fun c => c != '}') = true
      ∧ containsSub ('{' :: (("name" : String).data ++ ['}']))
          ("Hi {name}, your code is {code}" : String).data = true :=
  C8_extraction_sound.1 "Hi {name}, your code is {code}" "name" (by decide)

/-- C8: the claim is false on the code.  The template `"{a{b}"`
contains the substring `"{b}"`, which is of the claimed form (a `{`,
one or more non-`}` characters, then `}`), yet its identifier `b` is
not extracted: the non-overlapping left-to-right scan consumes
`"{a{b}"` as one match with identifier `a{b` and never revisits the
inner brace. -/
theorem C8_counterexample_nested :
    ("\x7ba\x7bb\x7d" : String).data
        = ("\x7ba" : String).data
            ++ ('{' :: (("b" : String).data ++ ['}'])) ++ []
      ∧ ("b" : String) ≠ ""
      ∧ ("b" : String).data.all (fun c => c != '}') = true
      ∧ "b" ∉ validate_template_params "\x7ba\x7bb\x7d"
      ∧ validate_template_params "\x7ba\x7bb\x7d" = {"a\x7bb"} := by
  refine ⟨by decide, by decide, by decide, by decide, by decide⟩

/-! ## C9: rendering the empty content -/

/-- C9: for every tag map, rendering the empty content string yields a
single placeholder paragraph: splitting `""` on the newline gives one
empty paragraph, which triggers the blank-line placeholder. -/
theorem C9_empty_content (tags : Nat → List String) :
    get_html_content "" tags = "<p>&nbsp;</p>" := rfl

/-! ## C10: template validation -/

/-- C10: `validate_template` returns the pair `(b, U)` with `U` the
union of the parameters extracted from subject and content minus the
available set, and `b` true exactly when `U` is empty. -/
theorem C10_validate_template (subject content : String)
    (available : Finset String) :
    (validate_template subject content available).2
      = (validate_template_params subject ∪ validate_template_params content)
          \ available
    ∧ ((validate_template subject content available).1 = true
        ↔ (validate_template subject content available).2 = ∅) := by
  refine ⟨rfl, ?_⟩
  show ((get_template_params subject content \ available).card == 0) = true ↔ _
  simp [validate_template, Finset.card_eq_zero]

end Mailcast
